import Mathlib

/-!
Shallow embedding of the nogo fix merge/apply engine
(`nogo_change.go` / `nogo_edit.go`): the `NogoEdit` data model, the
`(start, end)` ordering, `validateBytes`, `applyEditsBytes`,
`uniqueSortedEdits`, `flatten` and `newChangeFromDiagnostics`.

Byte buffers (Go `[]byte` and `string` contents) are modelled as `List Nat`;
byte offsets (Go `int`) as `Int`.
-/

/-- Go `[]byte` / `string` contents: a sequence of bytes. -/
abbrev GoBytes := List Nat

/-- A `NogoEdit` describes the replacement of the byte range `[start, end)`
of a text file by `new`. -/
structure NogoEdit where
  new : GoBytes
  start : Int
  «end» : Int
deriving DecidableEq, Repr

/-- Go `editsSort.Less`: order by start offset, ties broken by end offset
(`a[i].Start - a[j].Start` compared with 0, then `a[i].End < a[j].End`). -/
def editLess (a b : NogoEdit) : Bool :=
  if a.start - b.start ≠ 0 then decide (a.start - b.start < 0)
  else decide (a.«end» < b.«end»)

/-- The total preorder `¬ Less b a` under which `sort.Stable(editsSort(edits))`
sorts: `(start, end)` lexicographic with ties allowed. -/
def editLe (a b : NogoEdit) : Prop :=
  editLess b a = false

instance : DecidableRel editLe := fun a b =>
  inferInstanceAs (Decidable (editLess b a = false))

/-- Go `sortEdits` orders a slice of NogoEdits by `(start, end)` offset with a
stable sort (`sort.Stable`); modelled by the (unique) stable sort
`List.insertionSort` under `editLe`. -/
def sortEdits (edits : List NogoEdit) : List NogoEdit :=
  List.insertionSort editLe edits

/-- Go `sort.IsSorted(editsSort(edits))`: no element is `Less` than its
predecessor. -/
def isSortedEdits : List NogoEdit → Bool
  | a :: b :: rest => !(editLess b a) && isSortedEdits (b :: rest)
  | _ => true

/-- The two error shapes produced by `validateBytes`; each carries the
offsets printed by the corresponding `fmt.Errorf` call. -/
inductive ValidateError where
  /-- Rendered as "the fix has an out-of-bounds edit with start=%d, end=%d". -/
  | outOfBounds (start «end» : Int)
  /-- Rendered as "the fix has an edit with start=%d, which overlaps with
  a previous edit with end=%d". -/
  | overlap (start lastEnd : Int)
deriving DecidableEq, Repr

/-- The message text of a `validateBytes` error, as built by `fmt.Errorf`. -/
def ValidateError.render : ValidateError → String
  | .outOfBounds s t =>
      "the fix has an out-of-bounds edit with start=" ++ toString s ++
        ", end=" ++ toString t
  | .overlap s t =>
      "the fix has an edit with start=" ++ toString s ++
        ", which overlaps with a previous edit with end=" ++ toString t

/-- The `for _, edit := range edits` loop of `validateBytes`: checks bounds
and overlap against `lastEnd`, accumulating the output size. -/
def validateLoop (n : Int) : List NogoEdit → Int → Int → Except ValidateError Int
  | [], _, size => .ok size
  | e :: rest, lastEnd, size =>
    if ¬(0 ≤ e.start ∧ e.start ≤ e.«end» ∧ e.«end» ≤ n) then
      .error (.outOfBounds e.start e.«end»)
    else if e.start < lastEnd then
      .error (.overlap e.start lastEnd)
    else
      validateLoop n rest e.«end» (size + (e.new.length : Int) + e.start - e.«end»)

/-- Go `validateBytes` checks that edits are consistent with the `src` byte
slice and returns the size of the patched output.  If the edits are not
sorted it sorts a fresh copy first (the caller's slice is not mutated). -/
def validateBytes (src : GoBytes) (edits : List NogoEdit) :
    Except ValidateError (List NogoEdit × Int) :=
  let edits := if isSortedEdits edits then edits else sortEdits edits
  (validateLoop (src.length : Int) edits 0 (src.length : Int)).map
    (fun size => (edits, size))

/-- Go slice expression `src[a:b]` (both indices in range on every executed
path, since `applyEditsBytes` only slices after validation). -/
def goSlice (src : GoBytes) (a b : Int) : GoBytes :=
  (src.drop a.toNat).take (b - a).toNat

/-- The output-building loop of `applyEditsBytes`: copy the gap
`src[lastEnd:edit.Start]` when non-empty, append `edit.New`, advance
`lastEnd = edit.End`; after the last edit append `src[lastEnd:]`. -/
def applyLoop (src : GoBytes) : List NogoEdit → Int → GoBytes
  | [], lastEnd => src.drop lastEnd.toNat
  | e :: rest, lastEnd =>
    (if lastEnd < e.start then goSlice src lastEnd e.start else []) ++
      e.new ++ applyLoop src rest e.«end»

/-- Errors of `applyEditsBytes`: a validation failure, or the final
"unexpected output size" check. -/
inductive ApplyError where
  | validate (err : ValidateError)
  | wrongSize (got want : Int)
deriving DecidableEq, Repr

/-- Go `applyEditsBytes` applies a sequence of NogoEdits to the `src` byte
slice and returns the result, or an error if any edit is out of bounds or
any pair of edits overlaps. -/
def applyEditsBytes (src : GoBytes) (edits : List NogoEdit) :
    Except ApplyError GoBytes :=
  match validateBytes src edits with
  | .error e => .error (.validate e)
  | .ok (es, size) =>
    let out := applyLoop src es 0
    if (out.length : Int) ≠ size then .error (.wrongSize (out.length : Int) size)
    else .ok out

/-- The `equivalent` closure inside `uniqueSortedEdits`: equality of all
three fields. -/
def equivalentEdit (x y : NogoEdit) : Bool :=
  decide (x.start = y.start) && decide (x.«end» = y.«end») && decide (x.new = y.new)

/-- The `for i := 1; i < len(edits); i++` scan of `uniqueSortedEdits` over
the sorted array: `prev` is the element before `cur` in the sorted array;
equivalent neighbours are skipped, otherwise `cur` is kept and an overlap
with `prev` raises the flag. -/
def uniqueLoop : NogoEdit → List NogoEdit → List NogoEdit × Bool
  | _, [] => ([], false)
  | prev, cur :: rest =>
    let next := uniqueLoop cur rest
    if equivalentEdit prev cur then next
    else (cur :: next.1, next.2 || decide (cur.start < prev.«end»))

/-- Go `uniqueSortedEdits` returns a sorted list with no duplicate adjacent
edits, plus whether an overlap was detected among the kept edits.
(`sortEdits` is called on the argument slice in place.) -/
def uniqueSortedEdits (edits : List NogoEdit) : List NogoEdit × Bool :=
  match sortEdits edits with
  | [] => (edits, false)
  | s :: rest =>
    let scanned := uniqueLoop s rest
    (s :: scanned.1, scanned.2)

/-- Contents of the caller's slice after `uniqueSortedEdits` returns:
`sortEdits` (Go `sort.Stable`) permutes the caller's backing array in
place before the scan. -/
def uniqueSortedEditsArgAfter (edits : List NogoEdit) : List NogoEdit :=
  sortEdits edits

/-- Contents of the caller's slice after `validateBytes` returns: when the
input is unsorted the function sorts a fresh copy
(`append([]NogoEdit(nil), edits...)`), so the caller's slice is unchanged
either way. -/
def validateBytesArgAfter (src : GoBytes) (edits : List NogoEdit) : List NogoEdit :=
  edits

/-- Contents of the caller's slice after `applyEditsBytes` returns: the
slice is only passed to `validateBytes`, which does not mutate it. -/
def applyEditsBytesArgAfter (src : GoBytes) (edits : List NogoEdit) : List NogoEdit :=
  validateBytesArgAfter src edits

/-- Sum of `len(new) + start - end` over an edit list: the net size change
applied by the list. -/
def sumEdits (edits : List NogoEdit) : Int :=
  (edits.map (fun e => (e.new.length : Int) + e.start - e.«end»)).sum

/-- An edit list accepted by validation against a buffer of length `n`:
every edit is in bounds and, after `(start, end)` sorting, consecutive
edits do not overlap. -/
def ValidEditList (n : Int) (edits : List NogoEdit) : Prop :=
  (∀ e ∈ edits, 0 ≤ e.start ∧ e.start ≤ e.«end» ∧ e.«end» ≤ n) ∧
    List.Chain' (fun a b => a.«end» ≤ b.start) (sortEdits edits)

/-- String bytes of an ASCII literal (identifiers and file contents in the
concrete test vectors are ASCII, where char codes and UTF-8 bytes agree). -/
def strBytes (s : String) : GoBytes := s.data.map (fun c => c.toNat)

/-- Bytewise-lexicographic `<` on strings (Go string comparison, as used by
`sort.Strings`), on the character sequences. -/
def strLess : List Char → List Char → Bool
  | [], [] => false
  | [], _ :: _ => true
  | _ :: _, [] => false
  | a :: as, b :: bs =>
    if a.toNat < b.toNat then true
    else if b.toNat < a.toNat then false
    else strLess as bs

/-- The total preorder `¬(b < a)` under which `sort.Strings` sorts. -/
def strLe (a b : String) : Prop :=
  strLess b.data a.data = false

instance : DecidableRel strLe := fun a b =>
  inferInstanceAs (Decidable (strLess b.data a.data = false))

/-- Go `sort.Strings`: sort a list of identifiers lexicographically. -/
def sortStrings (l : List String) : List String :=
  List.insertionSort strLe l

/-- Go `NogoFileEdits.AnalyzerToEdits`: the per-file mapping from analyzer name
to that analyzer's edits, modelled as an association list (Go map iteration
order is unspecified; the code never relies on it). -/
abbrev NogoFileEdits := List (String × List NogoEdit)

/-- Go `NogoChange.FileToEdits`: file path to per-analyzer edits. -/
abbrev NogoChange := List (String × NogoFileEdits)

/-- Go map read `fileEdits.AnalyzerToEdits[analyzer]` (zero value `nil` when
the key is absent). -/
def lookupEdits : NogoFileEdits → String → List NogoEdit
  | [], _ => []
  | (k, es) :: rest, name => if k = name then es else lookupEdits rest name

/-- Go map read `change.FileToEdits[file]` (empty mapping when absent). -/
def lookupFileEdits : NogoChange → String → NogoFileEdits
  | [], _ => []
  | (k, fe) :: rest, file => if k = file then fe else lookupFileEdits rest file

/-- One iteration of `flatten`'s `for _, analyzer := range analyzers` loop,
at the level of slice values: empty edit lists are skipped; otherwise the
analyzer's edits are appended tentatively, deduplicated and checked, and
the merge is committed only when no overlap is detected.  This value-level
reading coincides with the Go code only when `append` reallocates the
candidate; `analyzerStepGo` below models the runtime's backing-array reuse,
under which a rejected analyzer can mutate the accumulator. -/
def analyzerStep (fe : NogoFileEdits) (acc : List NogoEdit) (name : String) :
    List NogoEdit :=
  let edits := lookupEdits fe name
  if edits.isEmpty then acc
  else
    let candidate := uniqueSortedEdits (acc ++ edits)
    if candidate.2 then acc else candidate.1

/-- The deterministic processing order of `flatten`: the file's analyzer
names, sorted. -/
def sortedAnalyzers (fe : NogoFileEdits) : List String :=
  sortStrings (fe.map Prod.fst)

/-- The per-file body of `flatten`: fold the sorted analyzers over the
`mergedEdits` accumulator, starting from the empty list. -/
def flattenFile (fe : NogoFileEdits) : List NogoEdit :=
  (sortedAnalyzers fe).foldl (analyzerStep fe) []

/-- Go `flatten` merges all edits for each file from its analyzers into a
single file-to-edits mapping. -/
def flatten (change : NogoChange) : List (String × List NogoEdit) :=
  change.map (fun p => (p.1, flattenFile p.2))

/-- Modelled from the spec: the Merge Engine of §4.3 additionally "record[s]
a conflict outcome for (source, file)" when a source's contribution is
rejected.  The recording itself is absent from the `flatten` in the sources
(it only skips the analyzer); this definition extends the same per-file fold
with the recorded `(file, analyzer)` conflict outcomes. -/
def flattenFileWithConflicts (fe : NogoFileEdits) :
    List NogoEdit × List String :=
  (sortedAnalyzers fe).foldl
    (fun st name =>
      let edits := lookupEdits fe name
      if edits.isEmpty then st
      else
        let candidate := uniqueSortedEdits (st.1 ++ edits)
        if candidate.2 then (st.1, st.2 ++ [name]) else (candidate.1, st.2))
    ([], [])

/-- Modelled from the spec: `flatten` together with the recorded conflict
outcomes, as pairs `(file, analyzer)`. -/
def flattenWithConflicts (change : NogoChange) :
    List (String × List NogoEdit) × List (String × String) :=
  (change.map (fun p => (p.1, (flattenFileWithConflicts p.2).1)),
   (change.map (fun p => (flattenFileWithConflicts p.2).2.map
      (fun a => (p.1, a)))).flatten)

/-- A file registered in a `token.FileSet`: its name, base position and
size; its positions are `[base, base+size]`. -/
structure TokenFile where
  name : String
  base : Int
  size : Int
deriving DecidableEq, Repr

/-- A `token.FileSet`, as the collection of its registered files. -/
abbrev FileSet := List TokenFile

/-- Go `fileSet.File(pos)`: the registered file whose position interval
contains `pos`, or none. -/
def fsFile (fs : FileSet) (pos : Int) : Option TokenFile :=
  fs.find? (fun f => decide (f.base ≤ pos ∧ pos ≤ f.base + f.size))

/-- An `analysis.TextEdit`: replace `[pos, end)` with `newText`.  A zero
`end` position is invalid (`token.NoPos`) and is replaced by `pos`. -/
structure GoTextEdit where
  pos : Int
  «end» : Int
  newText : GoBytes
deriving DecidableEq, Repr

/-- A `diagnosticEntry`, reduced to the fields the ingestion reads: the
analyzer's name and the `TextEdits` of each suggested fix. -/
structure diagnosticEntry where
  analyzer : String
  suggestedFixes : List (List GoTextEdit)
deriving DecidableEq, Repr

/-- The per-edit errors of `newChangeFromDiagnostics`, each carrying the
positions printed by the corresponding `fmt.Errorf` call. -/
inductive FixError where
  /-- Rendered as "invalid fix: missing file info for pos %v". -/
  | missingFile (pos : Int)
  /-- Rendered as "invalid fix: pos %v > end %v". -/
  | posGtEnd (start «end» : Int)
  /-- Rendered as "invalid fix: end %v past end of file %v". -/
  | endPastEof («end» eof : Int)
deriving DecidableEq, Repr

/-- The body of the innermost loop of `newChangeFromDiagnostics` for one
`TextEdit`: default an invalid end to start, resolve the file, check
`start <= end` and `end <= eof`, and convert positions to per-file offsets.
`rel` models `filepath.Rel(cwd, ·)` with its fallback to the plain name. -/
def processTextEdit (fs : FileSet) (rel : String → String) (te : GoTextEdit) :
    Except FixError (String × NogoEdit) :=
  let start := te.pos
  let endP := if te.«end» = 0 then start else te.«end»
  match fsFile fs start with
  | none => .error (.missingFile start)
  | some file =>
    if start > endP then .error (.posGtEnd start endP)
    else if endP > file.base + file.size then
      .error (.endPastEof endP (file.base + file.size))
    else
      .ok (rel file.name, ⟨te.newText, start - file.base, endP - file.base⟩)

/-- Go `NogoChange.addEdit` restricted to one file: append the edit to the
analyzer's list, creating the entry if needed. -/
def addEditFile (fe : NogoFileEdits) (analyzer : String) (ed : NogoEdit) :
    NogoFileEdits :=
  match fe with
  | [] => [(analyzer, [ed])]
  | (k, es) :: rest =>
    if k = analyzer then (k, es ++ [ed]) :: rest
    else (k, es) :: addEditFile rest analyzer ed

/-- Go `NogoChange.addEdit`: organize the edit under its file and analyzer. -/
def addEdit (c : NogoChange) (file analyzer : String) (ed : NogoEdit) :
    NogoChange :=
  match c with
  | [] => [(file, [(analyzer, [ed])])]
  | (k, fe) :: rest =>
    if k = file then (k, addEditFile fe analyzer ed) :: rest
    else (k, fe) :: addEdit rest file analyzer ed

/-- One `TextEdit` step of `newChangeFromDiagnostics`: an invalid edit
appends its error to `allErrors` and processing continues; a valid edit is
added to the change. -/
def processOneEdit (fs : FileSet) (rel : String → String) (analyzer : String)
    (st : NogoChange × List FixError) (te : GoTextEdit) :
    NogoChange × List FixError :=
  match processTextEdit fs rel te with
  | .error err => (st.1, st.2 ++ [err])
  | .ok (file, ed) => (addEdit st.1 file analyzer ed, st.2)

/-- The two inner loops of `newChangeFromDiagnostics` for one entry: every
`TextEdit` of every suggested fix. -/
def processEntry (fs : FileSet) (rel : String → String)
    (st : NogoChange × List FixError) (entry : diagnosticEntry) :
    NogoChange × List FixError :=
  entry.suggestedFixes.foldl
    (fun st fix => fix.foldl (processOneEdit fs rel entry.analyzer) st) st

/-- Go `newChangeFromDiagnostics` builds a NogoChange from a batch of
diagnostics, returning the change and the collected per-edit errors (the Go
code joins them into a single error when the list is non-empty). -/
def newChangeFromDiagnostics (fs : FileSet) (rel : String → String)
    (entries : List diagnosticEntry) : NogoChange × List FixError :=
  entries.foldl (processEntry fs rel) ([], [])

/-- The error, if any, that `newChangeFromDiagnostics` reports for one
`TextEdit` (independent of the path resolution). -/
def textEditError (fs : FileSet) (te : GoTextEdit) : Option FixError :=
  match processTextEdit fs (fun s => s) te with
  | .error err => some err
  | .ok _ => none

/-- The change-component step for one `TextEdit` (the error list aside). -/
def editChangeStep (fs : FileSet) (rel : String → String) (analyzer : String)
    (c : NogoChange) (te : GoTextEdit) : NogoChange :=
  match processTextEdit fs rel te with
  | .error _ => c
  | .ok (file, ed) => addEdit c file analyzer ed

/-- The edits recorded in a change for a given file and analyzer. -/
def editsFor (c : NogoChange) (file analyzer : String) : List NogoEdit :=
  lookupEdits (lookupFileEdits c file) analyzer

deriving instance DecidableEq for Except

/-- The edit `{0,5,"hello"}` of analyzer A in the deterministic-merge
scenario. -/
def helloEdit : NogoEdit := ⟨strBytes "hello", 0, 5⟩

/-- The edit `{3,8,"world"}` of analyzer B in the deterministic-merge
scenario. -/
def worldEdit : NogoEdit := ⟨strBytes "world", 3, 8⟩

/-- The change with sources A then B for one file. -/
def changeAB : NogoChange := [("file1.go", [("A", [helloEdit]), ("B", [worldEdit])])]

/-- The same change with B inserted before A. -/
def changeBA : NogoChange := [("file1.go", [("B", [worldEdit]), ("A", [helloEdit])])]

/-- The change-building effect of one suggested fix (its `TextEdits` in
order), with the error bookkeeping projected away. -/
def fixChangeStep (fs : FileSet) (rel : String → String) (analyzer : String)
    (c : NogoChange) (fix : List GoTextEdit) : NogoChange :=
  fix.foldl (editChangeStep fs rel analyzer) c

/-- The change-building effect of one diagnostic entry. -/
def entryChangeStep (fs : FileSet) (rel : String → String) (c : NogoChange)
    (entry : diagnosticEntry) : NogoChange :=
  entry.suggestedFixes.foldl (fixChangeStep fs rel entry.analyzer) c

/-- One error per malformed `TextEdit` of the batch, in processing order. -/
def batchErrors (fs : FileSet) (entries : List diagnosticEntry) : List FixError :=
  entries.flatMap (fun en =>
    en.suggestedFixes.flatMap (fun fix =>
      fix.flatMap (fun te => (textEditError fs te).toList)))

/-- A Go slice of NogoEdits, with the runtime representation that
`flatten`'s accumulator handling depends on: the written slots of its
backing array, its length and its capacity.  Slots of `backing` beyond
`len` are previously written spare capacity. -/
structure GoSlice where
  backing : List NogoEdit
  len : Nat
  cap : Nat
deriving DecidableEq, Repr

/-- The elements of a slice: the first `len` slots of its backing array. -/
def GoSlice.visible (s : GoSlice) : List NogoEdit := s.backing.take s.len

/-- Capacity growth of the reference Go runtime's `append` for small
slices: double the capacity, or take the needed length when it exceeds the
double (allocation-size rounding is omitted; for the element sizes and
lengths used here it changes no capacity). -/
def growCap (oldCap needed : Nat) : Nat :=
  if 2 * oldCap < needed then needed else 2 * oldCap

/-- Go `append(s, xs...)`: when the spare capacity suffices the language
mandates reuse of the backing array, so the result aliases `s`; otherwise
a fresh array is allocated with grown capacity.  The Bool records whether
the array was reused. -/
def goAppendMany (s : GoSlice) (xs : List NogoEdit) : GoSlice × Bool :=
  if s.len + xs.length ≤ s.cap then
    ({ backing := s.backing.take s.len ++ xs ++ s.backing.drop (s.len + xs.length),
       len := s.len + xs.length, cap := s.cap }, true)
  else
    ({ backing := s.backing.take s.len ++ xs, len := s.len + xs.length,
       cap := growCap s.cap (s.len + xs.length) }, false)

/-- Go `append(s, x)` for a single element. -/
def goAppend1 (s : GoSlice) (x : NogoEdit) : GoSlice :=
  (goAppendMany s [x]).1

/-- The fresh `unique` slice built inside `uniqueSortedEdits`:
`[]NogoEdit{edits[0]}` (length and capacity 1) followed by one `append`
per further kept edit; for three kept edits its capacity is 4. -/
def buildUniqueSlice : List NogoEdit → GoSlice
  | [] => ⟨[], 0, 0⟩
  | x :: xs => xs.foldl goAppend1 ⟨[x], 1, 1⟩

/-- Go `sortEdits` on a slice: `sort.Stable` permutes the slice's elements
in place within the backing array. -/
def sortSliceInPlace (s : GoSlice) : GoSlice :=
  { s with backing := sortEdits (s.backing.take s.len) ++ s.backing.drop s.len }

/-- One analyzer iteration of `flatten` under the runtime slice semantics:
`candidateEdits := append(mergedEdits, edits...)` reuses the accumulator's
backing array whenever its spare capacity suffices, and the in-place sort
inside `uniqueSortedEdits` then writes through the shared array; on
rejection (`continue`) the accumulator keeps its length and capacity, but
when the array was shared its visible elements have been permuted.  On
commit the accumulator becomes the fresh `unique` slice. -/
def analyzerStepGo (fe : NogoFileEdits) (acc : GoSlice) (name : String) :
    GoSlice :=
  let edits := lookupEdits fe name
  if edits.isEmpty then acc
  else
    let app := goAppendMany acc edits
    let sortedCand := sortSliceInPlace app.1
    let scan := uniqueSortedEdits app.1.visible
    if scan.2 then
      if app.2 then { backing := sortedCand.backing, len := acc.len, cap := acc.cap }
      else acc
    else buildUniqueSlice scan.1

/-- Per-file `flatten` under the runtime slice semantics
(`mergedEdits := make([]NogoEdit, 0)` starts as a nil slice). -/
def flattenFileGo (fe : NogoFileEdits) : List NogoEdit :=
  ((sortedAnalyzers fe).foldl (analyzerStepGo fe) ⟨[], 0, 0⟩).visible

/-- The failing input for the accumulator-preservation claim: analyzer A
commits three disjoint edits (the `unique` slice has length 3 and capacity
4), analyzer B contributes one edit that overlaps A's first edit and sorts
before it. -/
def bugFileEdits : NogoFileEdits :=
  [("A", [⟨strBytes "a", 10, 12⟩, ⟨strBytes "b", 13, 15⟩,
      ⟨strBytes "c", 16, 18⟩]),
   ("B", [⟨strBytes "z", 9, 14⟩])]

theorem editLe_iff (a b : NogoEdit) :
    editLe a b ↔ a.start < b.start ∨ (a.start = b.start ∧ a.«end» ≤ b.«end») := by
  unfold editLe editLess
  split <;> simp <;> omega

instance : IsTotal NogoEdit editLe :=
  ⟨fun a b => by rw [editLe_iff, editLe_iff]; omega⟩

instance : IsTrans NogoEdit editLe :=
  ⟨fun a b c hab hbc => by
    rw [editLe_iff] at hab hbc ⊢; omega⟩

theorem sortEdits_perm (edits : List NogoEdit) :
    List.Perm (sortEdits edits) edits :=
  List.perm_insertionSort editLe edits

theorem sortEdits_sorted (edits : List NogoEdit) :
    (sortEdits edits).Pairwise editLe :=
  List.sorted_insertionSort editLe edits

theorem isSortedEdits_iff (l : List NogoEdit) :
    isSortedEdits l = true ↔ l.Chain' editLe := by
  induction l with
  | nil => simp [isSortedEdits]
  | cons a l ih =>
    cases l with
    | nil => simp [isSortedEdits]
    | cons b t =>
      rw [List.chain'_cons, ← ih]
      simp [isSortedEdits, editLe]

theorem sortEdits_of_isSorted {l : List NogoEdit} (h : isSortedEdits l = true) :
    sortEdits l = l :=
  List.Sorted.insertionSort_eq
    (List.chain'_iff_pairwise.1 ((isSortedEdits_iff l).1 h))

theorem prepared_eq (edits : List NogoEdit) :
    (if isSortedEdits edits then edits else sortEdits edits) = sortEdits edits := by
  by_cases h : isSortedEdits edits
  · simp [h, sortEdits_of_isSorted h]
  · simp [h]

theorem validateBytes_eq (src : GoBytes) (edits : List NogoEdit) :
    validateBytes src edits =
      (validateLoop (src.length : Int) (sortEdits edits) 0 (src.length : Int)).map
        (fun size => (sortEdits edits, size)) := by
  simp only [validateBytes, prepared_eq]

/-- Claim C7: for every byte buffer `src`, applying the empty edit list
succeeds and returns a buffer equal to `src` (`applyEditsBytes` builds its
output in a fresh buffer; in this value-level model the no-op is the
identity on the contents). -/
theorem applyEditsBytes_nil (src : GoBytes) : applyEditsBytes src [] = .ok src := by
  simp [applyEditsBytes, validateBytes, isSortedEdits, validateLoop, applyLoop,
    Except.map]

/-- Claim C6: sorting the pair `{start:0,end:0,new:"X"}` (insertion) and
`{start:0,end:1,new:""}` (deletion at the same offset) places the insertion
first, and applying the pair to the buffer `"A"` (byte 65) succeeds and
yields exactly `"X"` (byte 88). -/
theorem sortEdits_insert_before_delete :
    sortEdits [⟨[], 0, 1⟩, ⟨[88], 0, 0⟩] = [⟨[88], 0, 0⟩, ⟨[], 0, 1⟩] ∧
    sortEdits [⟨[88], 0, 0⟩, ⟨[], 0, 1⟩] = [⟨[88], 0, 0⟩, ⟨[], 0, 1⟩] ∧
    applyEditsBytes [65] [⟨[88], 0, 0⟩, ⟨[], 0, 1⟩] = .ok [88] ∧
    applyEditsBytes [65] [⟨[], 0, 1⟩, ⟨[88], 0, 0⟩] = .ok [88] := by
  decide

theorem validateLoop_ok (n : Int) :
    ∀ (es : List NogoEdit) (lastEnd size : Int),
      (∀ e ∈ es, 0 ≤ e.start ∧ e.start ≤ e.«end» ∧ e.«end» ≤ n) →
      es.Chain' (fun a b => a.«end» ≤ b.start) →
      (∀ x ∈ es.head?, lastEnd ≤ x.start) →
      validateLoop n es lastEnd size = .ok (size + sumEdits es)
  | [], lastEnd, size, _, _, _ => by
    simp [validateLoop, sumEdits]
  | e :: rest, lastEnd, size, hb, hc, hh => by
    have hbe := hb e (by simp)
    have hle : lastEnd ≤ e.start := hh e rfl
    rw [List.chain'_cons'] at hc
    have ih := validateLoop_ok n rest e.«end»
      (size + (e.new.length : Int) + e.start - e.«end»)
      (fun x hx => hb x (List.mem_cons_of_mem _ hx)) hc.2 hc.1
    rw [validateLoop, if_neg (not_not_intro hbe), if_neg (by omega), ih]
    have : sumEdits (e :: rest) =
        ((e.new.length : Int) + e.start - e.«end») + sumEdits rest := by
      simp [sumEdits]
    rw [this]
    congr 1
    ring

theorem validateLoop_ok_props (n : Int) :
    ∀ (es : List NogoEdit) (lastEnd size size' : Int),
      validateLoop n es lastEnd size = .ok size' →
      (∀ e ∈ es, 0 ≤ e.start ∧ e.start ≤ e.«end» ∧ e.«end» ≤ n) ∧
        es.Chain' (fun a b => a.«end» ≤ b.start) ∧
        (∀ x ∈ es.head?, lastEnd ≤ x.start) ∧
        size' = size + sumEdits es
  | [], lastEnd, size, size', h => by
    simp [validateLoop] at h
    simp [h, sumEdits]
  | e :: rest, lastEnd, size, size', h => by
    rw [validateLoop] at h
    by_cases h1 : ¬(0 ≤ e.start ∧ e.start ≤ e.«end» ∧ e.«end» ≤ n)
    · rw [if_pos h1] at h; exact absurd h (by simp)
    · rw [if_neg h1] at h
      by_cases h2 : e.start < lastEnd
      · rw [if_pos h2] at h; exact absurd h (by simp)
      · rw [if_neg h2] at h
        obtain ⟨ihb, ihc, ihh, ihs⟩ := validateLoop_ok_props n rest e.«end» _ size' h
        push_neg at h1
        refine ⟨?_, ?_, ?_, ?_⟩
        · intro x hx
          rcases List.mem_cons.1 hx with rfl | hx
          · exact h1
          · exact ihb x hx
        · exact List.chain'_cons'.2 ⟨ihh, ihc⟩
        · intro x hx
          rw [List.head?_cons, Option.mem_def, Option.some.injEq] at hx
          subst hx
          omega
        · have : sumEdits (e :: rest) =
              ((e.new.length : Int) + e.start - e.«end») + sumEdits rest := by
            simp [sumEdits]
          rw [this]
          omega

theorem validateLoop_err_oob (n : Int) :
    ∀ (es : List NogoEdit) (lastEnd size s t : Int),
      validateLoop n es lastEnd size = .error (.outOfBounds s t) →
      ∃ e ∈ es, e.start = s ∧ e.«end» = t ∧ ¬(0 ≤ s ∧ s ≤ t ∧ t ≤ n)
  | [], _, _, _, _, h => by simp [validateLoop] at h
  | e :: rest, lastEnd, size, s, t, h => by
    rw [validateLoop] at h
    by_cases h1 : ¬(0 ≤ e.start ∧ e.start ≤ e.«end» ∧ e.«end» ≤ n)
    · rw [if_pos h1] at h
      refine ⟨e, by simp, ?_⟩
      obtain ⟨rfl, rfl⟩ : e.start = s ∧ e.«end» = t := by
        injection h with h
        injection h with ha hb
        exact ⟨ha, hb⟩
      exact ⟨rfl, rfl, h1⟩
    · rw [if_neg h1] at h
      by_cases h2 : e.start < lastEnd
      · rw [if_pos h2] at h
        exact absurd h (by simp)
      · rw [if_neg h2] at h
        obtain ⟨x, hx, hprop⟩ := validateLoop_err_oob n rest e.«end» _ s t h
        exact ⟨x, List.mem_cons_of_mem _ hx, hprop⟩

theorem validateLoop_err_overlap (n : Int) :
    ∀ (es : List NogoEdit) (lastEnd size s t : Int),
      validateLoop n es lastEnd size = .error (.overlap s t) →
      s < t ∧ 0 ≤ s ∧
        ((∃ e ∈ es.head?, e.start = s ∧ t = lastEnd) ∨
          ∃ l1 a b l2, es = l1 ++ a :: b :: l2 ∧ a.«end» = t ∧ b.start = s)
  | [], _, _, _, _, h => by simp [validateLoop] at h
  | e :: rest, lastEnd, size, s, t, h => by
    rw [validateLoop] at h
    by_cases h1 : ¬(0 ≤ e.start ∧ e.start ≤ e.«end» ∧ e.«end» ≤ n)
    · rw [if_pos h1] at h
      exact absurd h (by simp)
    · rw [if_neg h1] at h
      push_neg at h1
      by_cases h2 : e.start < lastEnd
      · rw [if_pos h2] at h
        obtain ⟨rfl, rfl⟩ : e.start = s ∧ lastEnd = t := by
          injection h with h
          injection h with ha hb
          exact ⟨ha, hb⟩
        exact ⟨h2, h1.1, Or.inl ⟨e, rfl, rfl, rfl⟩⟩
      · rw [if_neg h2] at h
        obtain ⟨hst, hs0, hcase⟩ := validateLoop_err_overlap n rest e.«end» _ s t h
        refine ⟨hst, hs0, Or.inr ?_⟩
        rcases hcase with ⟨x, hx, hxs, rfl⟩ | ⟨l1, a, b, l2, rfl, hat, hbs⟩
        · rcases rest with _ | ⟨y, rest⟩
          · simp at hx
          · rw [List.head?_cons, Option.mem_def, Option.some.injEq] at hx
            subst hx
            exact ⟨[], e, y, rest, rfl, rfl, hxs⟩
        · exact ⟨e :: l1, a, b, l2, rfl, hat, hbs⟩

theorem goSlice_length (src : GoBytes) (a b : Int) (h0 : 0 ≤ a) (hab : a ≤ b)
    (hb : b ≤ (src.length : Int)) : ((goSlice src a b).length : Int) = b - a := by
  simp [goSlice, List.length_take, List.length_drop]
  omega

theorem applyLoop_length (src : GoBytes) :
    ∀ (es : List NogoEdit) (lastEnd : Int),
      (∀ e ∈ es, 0 ≤ e.start ∧ e.start ≤ e.«end» ∧ e.«end» ≤ (src.length : Int)) →
      es.Chain' (fun a b => a.«end» ≤ b.start) →
      (∀ x ∈ es.head?, lastEnd ≤ x.start) →
      0 ≤ lastEnd → lastEnd ≤ (src.length : Int) →
      ((applyLoop src es lastEnd).length : Int) =
        (src.length : Int) - lastEnd + sumEdits es
  | [], lastEnd, _, _, _, h0, hn => by
    simp [applyLoop, sumEdits, List.length_drop]
    omega
  | e :: rest, lastEnd, hb, hc, hh, h0, hn => by
    have hbe := hb e (by simp)
    have hle : lastEnd ≤ e.start := hh e rfl
    rw [List.chain'_cons'] at hc
    have ih := applyLoop_length src rest e.«end»
      (fun x hx => hb x (List.mem_cons_of_mem _ hx)) hc.2 hc.1
      (by omega) (by omega)
    have hsum : sumEdits (e :: rest) =
        ((e.new.length : Int) + e.start - e.«end») + sumEdits rest := by
      simp [sumEdits]
    rw [applyLoop]
    by_cases hgap : lastEnd < e.start
    · rw [if_pos hgap]
      simp only [List.length_append, Nat.cast_add]
      rw [goSlice_length src lastEnd e.start h0 (by omega) (by omega), ih, hsum]
      ring
    · rw [if_neg hgap]
      simp only [List.nil_append, List.length_append, Nat.cast_add]
      rw [ih, hsum]
      omega

/-- Claim C1: for every byte buffer `src` and every edit list accepted by
validation (all edits in bounds and non-overlapping after `(start, end)`
sorting), `applyEditsBytes src edits` succeeds and the length of its result
equals `len(src)` plus the sum over all edits of `len(new) + start - end`,
exactly. -/
theorem applyEditsBytes_size (src : GoBytes) (edits : List NogoEdit)
    (h : ValidEditList (src.length : Int) edits) :
    ∃ out, applyEditsBytes src edits = .ok out ∧
      (out.length : Int) = (src.length : Int) + sumEdits edits := by
  obtain ⟨hb, hc⟩ := h
  have hperm := sortEdits_perm edits
  have hb' : ∀ e ∈ sortEdits edits,
      0 ≤ e.start ∧ e.start ≤ e.«end» ∧ e.«end» ≤ (src.length : Int) :=
    fun e he => hb e (hperm.subset he)
  have hhead : ∀ x ∈ (sortEdits edits).head?, (0 : Int) ≤ x.start :=
    fun x hx => (hb' x (List.mem_of_mem_head? hx)).1
  have hsum : sumEdits (sortEdits edits) = sumEdits edits :=
    List.Perm.sum_eq (hperm.map _)
  have hval : validateBytes src edits =
      .ok (sortEdits edits, (src.length : Int) + sumEdits (sortEdits edits)) := by
    rw [validateBytes_eq, validateLoop_ok _ _ _ _ hb' hc hhead]
    rfl
  have happly := applyLoop_length src (sortEdits edits) 0 hb' hc hhead
    le_rfl (Int.natCast_nonneg _)
  refine ⟨applyLoop src (sortEdits edits) 0, ?_, by omega⟩
  simp only [applyEditsBytes, hval]
  rw [if_neg (by omega)]

/-- Witness for C1 at the `replace_partials` vector of the Go tests:
`"blanket\n"` with `[{1,3,"u"},{6,7,"r"}]`. -/
theorem applyEditsBytes_size_witness :
    ∃ out, applyEditsBytes (strBytes "blanket\n")
        [⟨strBytes "u", 1, 3⟩, ⟨strBytes "r", 6, 7⟩] = .ok out ∧
      (out.length : Int) = ((strBytes "blanket\n").length : Int) +
        sumEdits [⟨strBytes "u", 1, 3⟩, ⟨strBytes "r", 6, 7⟩] :=
  applyEditsBytes_size (strBytes "blanket\n")
    [⟨strBytes "u", 1, 3⟩, ⟨strBytes "r", 6, 7⟩]
    ⟨by decide, by
      rw [show sortEdits [⟨strBytes "u", 1, 3⟩, ⟨strBytes "r", 6, 7⟩] =
          [⟨strBytes "u", 1, 3⟩, ⟨strBytes "r", 6, 7⟩] from rfl]
      exact List.chain'_cons.2 ⟨by decide, List.chain'_singleton _⟩⟩

/-- Claim C3: `validateBytes src edits` succeeds iff every edit is in bounds
and, in sorted order, each edit's start is at least the previous edit's end
(adjacency allowed); on success nothing is dropped (the returned list is a
permutation of the input, sorted) and the size is the exact patched size;
on violation the returned error carries the offending offsets (an
out-of-bounds error names the bad edit's own offsets, an overlap error
names the offending start and the preceding sorted edit's end).  The
function is total: it never panics. -/
theorem validateBytes_spec (src : GoBytes) (edits : List NogoEdit) :
    ((∃ p, validateBytes src edits = .ok p) ↔
      ValidEditList (src.length : Int) edits)
    ∧ (∀ es size, validateBytes src edits = .ok (es, size) →
        List.Perm es edits ∧ es.Pairwise editLe ∧
          size = (src.length : Int) + sumEdits edits)
    ∧ (∀ s t, validateBytes src edits = .error (.outOfBounds s t) →
        ∃ e ∈ edits, e.start = s ∧ e.«end» = t ∧
          ¬(0 ≤ s ∧ s ≤ t ∧ t ≤ (src.length : Int)))
    ∧ (∀ s t, validateBytes src edits = .error (.overlap s t) →
        s < t ∧ ∃ l1 a b l2, sortEdits edits = l1 ++ a :: b :: l2 ∧
          a.«end» = t ∧ b.start = s) := by
  have hperm := sortEdits_perm edits
  have hsum : sumEdits (sortEdits edits) = sumEdits edits :=
    List.Perm.sum_eq (hperm.map _)
  cases hv : validateLoop ((src.length : Int)) (sortEdits edits) 0
      ((src.length : Int)) with
  | error err =>
    refine ⟨?_, ?_, ?_, ?_⟩
    · simp only [validateBytes_eq, hv, Except.map]
      constructor
      · rintro ⟨p, hp⟩
        exact absurd hp (by simp)
      · rintro ⟨hb, hc⟩
        have hb' : ∀ e ∈ sortEdits edits,
            0 ≤ e.start ∧ e.start ≤ e.«end» ∧ e.«end» ≤ (src.length : Int) :=
          fun e he => hb e (hperm.subset he)
        have hhead : ∀ x ∈ (sortEdits edits).head?, (0 : Int) ≤ x.start :=
          fun x hx => (hb' x (List.mem_of_mem_head? hx)).1
        rw [validateLoop_ok _ _ _ _ hb' hc hhead] at hv
        exact absurd hv (by simp)
    · intro es size hok
      rw [validateBytes_eq, hv] at hok
      exact absurd hok (by simp [Except.map])
    · intro s t herr
      rw [validateBytes_eq, hv] at herr
      simp only [Except.map] at herr
      injection herr with herr
      subst herr
      obtain ⟨e, he, hs, ht, hviol⟩ := validateLoop_err_oob _ _ _ _ _ _ hv
      exact ⟨e, hperm.subset he, hs, ht, hviol⟩
    · intro s t herr
      rw [validateBytes_eq, hv] at herr
      simp only [Except.map] at herr
      injection herr with herr
      subst herr
      obtain ⟨hst, hs0, hcase⟩ := validateLoop_err_overlap _ _ _ _ _ _ hv
      refine ⟨hst, ?_⟩
      rcases hcase with ⟨e, _, _, ht0⟩ | ⟨l1, a, b, l2, hsplit, hat, hbs⟩
      · omega
      · exact ⟨l1, a, b, l2, hsplit, hat, hbs⟩
  | ok size =>
    obtain ⟨hb', hc', _, hsz⟩ := validateLoop_ok_props _ _ _ _ _ hv
    refine ⟨?_, ?_, ?_, ?_⟩
    · simp only [validateBytes_eq, hv, Except.map]
      constructor
      · intro _
        refine ⟨fun e he => hb' e (hperm.symm.subset he), hc'⟩
      · intro _
        exact ⟨(sortEdits edits, size), rfl⟩
    · intro es size' hok
      rw [validateBytes_eq, hv] at hok
      simp only [Except.map] at hok
      injection hok with hok
      obtain ⟨rfl, rfl⟩ : sortEdits edits = es ∧ size = size' := by
        constructor
        · exact congrArg Prod.fst hok
        · exact congrArg Prod.snd hok
      exact ⟨hperm, sortEdits_sorted edits, by omega⟩
    · intro s t herr
      rw [validateBytes_eq, hv] at herr
      exact absurd herr (by simp [Except.map])
    · intro s t herr
      rw [validateBytes_eq, hv] at herr
      exact absurd herr (by simp [Except.map])

/-- Witness for C3: the overlap error for `[{0,2,"q"},{1,3,"r"}]` on `"ABC"`
names the offending offsets 1 and 2 on adjacent sorted edits, and the
out-of-bounds error for `[{1,5,"q"}]` names the bad edit's own offsets. -/
theorem validateBytes_spec_witness :
    ((1 : Int) < 2 ∧ ∃ l1 a b l2,
        sortEdits [⟨[113], 0, 2⟩, ⟨[114], 1, 3⟩] = l1 ++ a :: b :: l2 ∧
          a.«end» = 2 ∧ b.start = 1) ∧
    (∃ e ∈ [(⟨[113], 1, 5⟩ : NogoEdit)], e.start = 1 ∧ e.«end» = 5 ∧
        ¬(0 ≤ (1 : Int) ∧ (1 : Int) ≤ 5 ∧ (5 : Int) ≤
          ((strBytes "ABC").length : Int))) :=
  ⟨(validateBytes_spec (strBytes "ABC") [⟨[113], 0, 2⟩, ⟨[114], 1, 3⟩]).2.2.2
      1 2 rfl,
   (validateBytes_spec (strBytes "ABC") [⟨[113], 1, 5⟩]).2.2.1 1 5 rfl⟩

/-- Claim C10, amended: at the apply layer, exact duplicate edits are
tolerated only when they are pure insertions at a valid offset: for every
`src` and edit `e` with `0 ≤ start = end ≤ len(src)`,
`applyEditsBytes src [e, e]` succeeds and inserts `new` twice at that
point, whereas for `0 ≤ start < end ≤ len(src)` it fails with the
overlapping-edits error. -/
theorem applyEditsBytes_duplicate (src : GoBytes) (e : NogoEdit) :
    (0 ≤ e.start → e.start = e.«end» → e.«end» ≤ (src.length : Int) →
      applyEditsBytes src [e, e] =
        .ok (src.take e.start.toNat ++ e.new ++ e.new ++ src.drop e.start.toNat))
    ∧ (0 ≤ e.start → e.start < e.«end» → e.«end» ≤ (src.length : Int) →
      applyEditsBytes src [e, e] =
        .error (.validate (.overlap e.start e.«end»))) := by
  have hsort : sortEdits [e, e] = [e, e] :=
    sortEdits_of_isSorted (by simp [isSortedEdits, editLess])
  constructor
  · intro h0 heq hle
    have hb : ∀ x ∈ [e, e],
        0 ≤ x.start ∧ x.start ≤ x.«end» ∧ x.«end» ≤ (src.length : Int) := by
      intro x hx
      rcases List.mem_cons.1 hx with rfl | hx
      · omega
      · rcases List.mem_cons.1 hx with rfl | hx
        · omega
        · simp at hx
    have hc : List.Chain' (fun a b => a.«end» ≤ b.start) [e, e] :=
      List.chain'_cons.2 ⟨by omega, List.chain'_singleton _⟩
    have hh : ∀ x ∈ ([e, e] : List NogoEdit).head?, (0 : Int) ≤ x.start := by
      intro x hx
      rw [List.head?_cons, Option.mem_def, Option.some.injEq] at hx
      subst hx
      omega
    have hval : validateBytes src [e, e] =
        .ok ([e, e], (src.length : Int) + sumEdits [e, e]) := by
      rw [validateBytes_eq, hsort, validateLoop_ok _ _ _ _ hb hc hh]
      rfl
    have hlen := applyLoop_length src [e, e] 0 hb hc hh le_rfl
      (Int.natCast_nonneg _)
    have hout : applyLoop src [e, e] 0 =
        src.take e.start.toNat ++ e.new ++ e.new ++ src.drop e.start.toNat := by
      simp only [applyLoop]
      rw [if_neg (show ¬ e.«end» < e.start by omega)]
      rw [show e.«end».toNat = e.start.toNat by omega]
      by_cases hpos : (0 : Int) < e.start
      · rw [if_pos hpos]
        simp [goSlice, List.append_assoc]
      · rw [if_neg hpos]
        have hz : e.start.toNat = 0 := by omega
        simp [hz, List.append_assoc]
    simp only [applyEditsBytes, hval]
    rw [if_neg (show ¬ ((applyLoop src [e, e] 0).length : Int) ≠
        (src.length : Int) + sumEdits [e, e] by omega), hout]
  · intro h0 hlt hle
    have hval : validateLoop (src.length : Int) [e, e] 0 (src.length : Int) =
        .error (.overlap e.start e.«end») := by
      rw [validateLoop, if_neg (not_not_intro ⟨h0, by omega, hle⟩),
        if_neg (by omega), validateLoop,
        if_neg (not_not_intro ⟨h0, by omega, hle⟩), if_pos hlt]
    simp only [applyEditsBytes, validateBytes_eq, hsort, hval, Except.map]

/-- Witness for C10 (amended): the duplicate insertion `{1,1,"x"}` on `"AB"`
succeeds and doubles the insertion; the duplicate deletion-range edit
`{0,1,"x"}` on `"AB"` fails with the overlap error. -/
theorem applyEditsBytes_duplicate_witness :
    applyEditsBytes [65, 66] [⟨[120], 1, 1⟩, ⟨[120], 1, 1⟩] =
      .ok ([65] ++ [120] ++ [120] ++ [66]) ∧
    applyEditsBytes [65, 66] [⟨[120], 0, 1⟩, ⟨[120], 0, 1⟩] =
      .error (.validate (.overlap 0 1)) :=
  ⟨(applyEditsBytes_duplicate [65, 66] ⟨[120], 1, 1⟩).1 (by decide) (by decide)
      (by decide),
   (applyEditsBytes_duplicate [65, 66] ⟨[120], 0, 1⟩).2 (by decide) (by decide)
      (by decide)⟩

/-- C10 counterexample to the claim as stated: the edit `{-1,-1,"x"}`
satisfies `start = end ≤ len(src)` for `src = "A"`, yet
`applyEditsBytes src [e, e]` does not succeed: it fails with the
out-of-bounds error (the claim needs the extra hypothesis `0 ≤ start`). -/
theorem applyEditsBytes_duplicate_counterexample :
    ((⟨[120], -1, -1⟩ : NogoEdit).start = (⟨[120], -1, -1⟩ : NogoEdit).«end» ∧
      (⟨[120], -1, -1⟩ : NogoEdit).«end» ≤ (([65] : GoBytes).length : Int)) ∧
    applyEditsBytes [65] [⟨[120], -1, -1⟩, ⟨[120], -1, -1⟩] =
      .error (.validate (.outOfBounds (-1) (-1))) := by
  decide

theorem equivalentEdit_iff (x y : NogoEdit) : equivalentEdit x y = true ↔ x = y := by
  cases x
  cases y
  simp [equivalentEdit]
  tauto

theorem uniqueLoop_sublist : ∀ (prev : NogoEdit) (l : List NogoEdit),
    (uniqueLoop prev l).1.Sublist l
  | _, [] => by simp [uniqueLoop]
  | prev, cur :: rest => by
    have ih := uniqueLoop_sublist cur rest
    by_cases h : equivalentEdit prev cur
    · simp only [uniqueLoop, if_pos h]
      exact ih.cons _
    · simp only [uniqueLoop, if_neg h]
      exact ih.cons₂ _

theorem uniqueLoop_chain_ne : ∀ (prev : NogoEdit) (l : List NogoEdit),
    List.Chain' (fun a b => a ≠ b) (prev :: (uniqueLoop prev l).1)
  | _, [] => by simp [uniqueLoop]
  | prev, cur :: rest => by
    have ih := uniqueLoop_chain_ne cur rest
    by_cases h : equivalentEdit prev cur
    · have heq : prev = cur := (equivalentEdit_iff prev cur).1 h
      simp only [uniqueLoop, if_pos h]
      rw [heq]
      exact ih
    · have hne : prev ≠ cur := fun hc => h ((equivalentEdit_iff prev cur).2 hc)
      simp only [uniqueLoop, if_neg h]
      exact List.chain'_cons.2 ⟨hne, ih⟩

theorem uniqueLoop_flag : ∀ (prev : NogoEdit) (l : List NogoEdit),
    ((uniqueLoop prev l).2 = true ↔
      ¬ List.Chain' (fun a b => a.«end» ≤ b.start) (prev :: (uniqueLoop prev l).1))
  | _, [] => by simp [uniqueLoop]
  | prev, cur :: rest => by
    have ih := uniqueLoop_flag cur rest
    by_cases h : equivalentEdit prev cur
    · have heq : prev = cur := (equivalentEdit_iff prev cur).1 h
      simp only [uniqueLoop, if_pos h]
      rw [heq]
      exact ih
    · simp only [uniqueLoop, if_neg h, Bool.or_eq_true, decide_eq_true_eq]
      rw [ih, List.chain'_cons]
      constructor
      · rintro (hflag | hlt) ⟨hle, hc⟩
        · exact hflag hc
        · omega
      · intro hn
        by_cases hle : prev.«end» ≤ cur.start
        · exact Or.inl (fun hc => hn ⟨hle, hc⟩)
        · exact Or.inr (by omega)

theorem uniqueLoop_mem : ∀ (prev : NogoEdit) (l : List NogoEdit) (x : NogoEdit),
    x ∈ l → x ∈ prev :: (uniqueLoop prev l).1
  | prev, cur :: rest, x, hx => by
    have ih := uniqueLoop_mem cur rest x
    by_cases h : equivalentEdit prev cur
    · have heq : prev = cur := (equivalentEdit_iff prev cur).1 h
      simp only [uniqueLoop, if_pos h]
      rcases List.mem_cons.1 hx with rfl | hx
      · rw [heq]
        exact List.mem_cons_self _ _
      · rw [heq]
        exact ih hx
    · simp only [uniqueLoop, if_neg h]
      rcases List.mem_cons.1 hx with rfl | hx
      · exact List.mem_cons_of_mem _ (List.mem_cons_self _ _)
      · rcases List.mem_cons.1 (ih hx) with rfl | hmem
        · exact List.mem_cons_of_mem _ (List.mem_cons_self _ _)
        · exact List.mem_cons_of_mem _ (List.mem_cons_of_mem _ hmem)

theorem chain_nonoverlap_pairwise : ∀ {l : List NogoEdit}, l.Pairwise editLe →
    (l.Chain' (fun a b => a.«end» ≤ b.start) ↔
      l.Pairwise (fun a b => a.«end» ≤ b.start))
  | [], _ => by simp
  | a :: l, hs => by
    rw [List.pairwise_cons] at hs
    have ih := chain_nonoverlap_pairwise hs.2
    rw [List.chain'_cons', List.pairwise_cons, ih]
    constructor
    · rintro ⟨hhead, hpl⟩
      refine ⟨?_, hpl⟩
      intro b hb
      rcases l with _ | ⟨y, t⟩
      · simp at hb
      · have hay : a.«end» ≤ y.start := hhead y rfl
        rcases List.mem_cons.1 hb with rfl | hbt
        · exact hay
        · have hyb := (List.pairwise_cons.1 hs.2).1 b hbt
          rw [editLe_iff] at hyb
          omega
    · rintro ⟨hall, hpl⟩
      exact ⟨fun y hy => hall y (List.mem_of_mem_head? hy), hpl⟩

/-- Claim C4, amended: `uniqueSortedEdits` returns a list sorted by
`(start, end)` in which *adjacent* exact duplicates of the stable sort are
collapsed (no two neighbouring output edits are equal, but equal edits
separated in the sorted order by a distinct edit with the same offsets are
both kept), every input edit still occurs in the output, and the overlap
signal is raised iff some pair of the kept edits overlaps; in particular
deduplicating `[{0,5,"x"},{0,5,"x"}]` yields `[{0,5,"x"}]` with no overlap
flagged. -/
theorem uniqueSortedEdits_spec (edits : List NogoEdit) :
    (uniqueSortedEdits edits).1.Pairwise editLe ∧
    List.Chain' (fun a b => a ≠ b) (uniqueSortedEdits edits).1 ∧
    ((uniqueSortedEdits edits).2 = true ↔
      ¬ (uniqueSortedEdits edits).1.Pairwise (fun a b => a.«end» ≤ b.start)) ∧
    (∀ x, x ∈ (uniqueSortedEdits edits).1 ↔ x ∈ edits) ∧
    uniqueSortedEdits [⟨[120], 0, 5⟩, ⟨[120], 0, 5⟩] = ([⟨[120], 0, 5⟩], false) := by
  have hperm := sortEdits_perm edits
  cases hs : sortEdits edits with
  | nil =>
    have hnil : edits = [] := (hs ▸ hperm).symm.eq_nil
    subst hnil
    refine ⟨?_, ?_, ?_, ?_, by decide⟩ <;> simp [uniqueSortedEdits, sortEdits]
  | cons s rest =>
    have hsub : (s :: (uniqueLoop s rest).1).Sublist (s :: rest) :=
      (uniqueLoop_sublist s rest).cons₂ _
    have hsorted : (s :: (uniqueLoop s rest).1).Pairwise editLe :=
      (hs ▸ sortEdits_sorted edits).sublist hsub
    refine ⟨?_, ?_, ?_, ?_, by decide⟩
    · simpa only [uniqueSortedEdits, hs] using hsorted
    · simpa only [uniqueSortedEdits, hs] using uniqueLoop_chain_ne s rest
    · simp only [uniqueSortedEdits, hs]
      rw [uniqueLoop_flag s rest, chain_nonoverlap_pairwise hsorted]
    · intro x
      simp only [uniqueSortedEdits, hs]
      constructor
      · intro hx
        exact hperm.subset (hs ▸ hsub.subset hx)
      · intro hx
        have : x ∈ s :: rest := hs ▸ hperm.symm.subset hx
        rcases List.mem_cons.1 this with rfl | hx'
        · exact List.mem_cons_self _ _
        · exact uniqueLoop_mem s rest x hx'

/-- C4 counterexample to the claim as stated: for the input
`[{0,5,"x"},{0,5,"y"},{0,5,"x"}]` the two exact duplicates `{0,5,"x"}` are
not collapsed to one instance: the stable sort keeps them separated by
`{0,5,"y"}`, only adjacent duplicates are merged, and the duplicate occurs
twice in the output. -/
theorem uniqueSortedEdits_counterexample :
    (uniqueSortedEdits [⟨[120], 0, 5⟩, ⟨[121], 0, 5⟩, ⟨[120], 0, 5⟩]).1 =
      [⟨[120], 0, 5⟩, ⟨[121], 0, 5⟩, ⟨[120], 0, 5⟩] ∧
    ((uniqueSortedEdits [⟨[120], 0, 5⟩, ⟨[121], 0, 5⟩, ⟨[120], 0, 5⟩]).1.count
      ⟨[120], 0, 5⟩) = 2 := by
  decide

/-- Claim C5 (conflict recording modelled from the spec): for the per-file
mapping with sources exactly `A -> [{0,5,"hello"}]` and
`B -> [{3,8,"world"}]`, the merge produces `[{0,5,"hello"}]` and records
the conflict `(file1.go, B)`, identically for both insertion orders of A
and B, because sources are processed in lexicographic order of their
identifiers; the source's `flatten` (without the recording) produces the
same merged list. -/
theorem flatten_deterministic_conflict :
    flattenWithConflicts changeAB =
      ([("file1.go", [helloEdit])], [("file1.go", "B")]) ∧
    flattenWithConflicts changeBA =
      ([("file1.go", [helloEdit])], [("file1.go", "B")]) ∧
    flatten changeAB = [("file1.go", [helloEdit])] ∧
    flatten changeBA = [("file1.go", [helloEdit])] := by
  decide

/-- Claim C9: `uniqueSortedEdits` sorts its argument slice in place — after
every call the caller's slice holds a permutation of its previous contents
in `(start, end)` order — while `validateBytes` (and hence
`applyEditsBytes`) sorts a fresh copy and leaves the caller's slice
unchanged. -/
theorem slice_mutation_spec (edits : List NogoEdit) :
    List.Perm (uniqueSortedEditsArgAfter edits) edits ∧
    (uniqueSortedEditsArgAfter edits).Pairwise editLe ∧
    (∀ src, validateBytesArgAfter src edits = edits) ∧
    (∀ src, applyEditsBytesArgAfter src edits = edits) :=
  ⟨sortEdits_perm edits, sortEdits_sorted edits, fun _ => rfl, fun _ => rfl⟩

theorem processTextEdit_rel (fs : FileSet) (rel : String → String)
    (te : GoTextEdit) :
    processTextEdit fs rel te =
      (processTextEdit fs (fun s => s) te).map (fun p => (rel p.1, p.2)) := by
  cases hf : fsFile fs te.pos with
  | none => simp [processTextEdit, hf, Except.map]
  | some file =>
    by_cases h1 : te.pos > (if te.«end» = 0 then te.pos else te.«end»)
    · simp [processTextEdit, hf, h1, Except.map]
    · by_cases h2 : (if te.«end» = 0 then te.pos else te.«end») >
          file.base + file.size
      · simp [processTextEdit, hf, h1, h2, Except.map]
      · simp [processTextEdit, hf, h1, h2, Except.map]

theorem processTextEdit_err (fs : FileSet) (rel : String → String)
    (te : GoTextEdit) (err : FixError) :
    processTextEdit fs rel te = .error err ↔ textEditError fs te = some err := by
  rw [processTextEdit_rel fs rel te]
  unfold textEditError
  cases processTextEdit fs (fun s => s) te with
  | error e => simp [Except.map]
  | ok p => simp [Except.map]

theorem processTextEdit_ok_none (fs : FileSet) (rel : String → String)
    (te : GoTextEdit) (p : String × NogoEdit)
    (h : processTextEdit fs rel te = .ok p) : textEditError fs te = none := by
  rw [processTextEdit_rel fs rel te] at h
  unfold textEditError
  cases hq : processTextEdit fs (fun s => s) te with
  | error e =>
    rw [hq] at h
    exact absurd h (by simp [Except.map])
  | ok q => simp

theorem processOneEdit_decomp (fs : FileSet) (rel : String → String)
    (analyzer : String) (st : NogoChange × List FixError) (te : GoTextEdit) :
    processOneEdit fs rel analyzer st te =
      (editChangeStep fs rel analyzer st.1 te,
        st.2 ++ (textEditError fs te).toList) := by
  unfold processOneEdit editChangeStep
  cases hp : processTextEdit fs rel te with
  | error err =>
    rw [(processTextEdit_err fs rel te err).1 hp]
    rfl
  | ok p =>
    rw [processTextEdit_ok_none fs rel te p hp]
    simp

theorem foldl_pair_decomp {α β γ : Type _} (f : (β × List γ) → α → (β × List γ))
    (g : β → α → β) (h : α → List γ)
    (hf : ∀ st x, f st x = (g st.1 x, st.2 ++ h x)) :
    ∀ (l : List α) (c : β) (errs : List γ),
      l.foldl f (c, errs) = (l.foldl g c, errs ++ l.flatMap h)
  | [], c, errs => by simp
  | x :: l, c, errs => by
    simp only [List.foldl_cons]
    rw [hf, foldl_pair_decomp f g h hf l]
    simp

theorem fix_decomp (fs : FileSet) (rel : String → String) (analyzer : String)
    (fix : List GoTextEdit) (c : NogoChange) (errs : List FixError) :
    fix.foldl (processOneEdit fs rel analyzer) (c, errs) =
      (fixChangeStep fs rel analyzer c fix,
        errs ++ fix.flatMap (fun te => (textEditError fs te).toList)) :=
  foldl_pair_decomp _ _ _ (processOneEdit_decomp fs rel analyzer) fix c errs

theorem entry_decomp (fs : FileSet) (rel : String → String)
    (st : NogoChange × List FixError) (entry : diagnosticEntry) :
    processEntry fs rel st entry =
      (entryChangeStep fs rel st.1 entry,
        st.2 ++ entry.suggestedFixes.flatMap (fun fix =>
          fix.flatMap (fun te => (textEditError fs te).toList))) := by
  unfold processEntry entryChangeStep
  exact foldl_pair_decomp _ _ _
    (fun st2 fix => fix_decomp fs rel entry.analyzer fix st2.1 st2.2)
    entry.suggestedFixes st.1 st.2

theorem run_decomp (fs : FileSet) (rel : String → String)
    (entries : List diagnosticEntry) (c : NogoChange) (errs : List FixError) :
    entries.foldl (processEntry fs rel) (c, errs) =
      (entries.foldl (entryChangeStep fs rel) c, errs ++ batchErrors fs entries) :=
  foldl_pair_decomp _ _ _ (entry_decomp fs rel) entries c errs

theorem lookupEdits_addEditFile (fe : NogoFileEdits) (analyzer : String)
    (ed : NogoEdit) (a : String) :
    lookupEdits (addEditFile fe analyzer ed) a =
      lookupEdits fe a ++ if analyzer = a then [ed] else [] := by
  induction fe with
  | nil =>
    by_cases h : analyzer = a <;> simp [addEditFile, lookupEdits, h]
  | cons p rest ih =>
    obtain ⟨k, es⟩ := p
    by_cases hk : k = analyzer
    · subst hk
      simp only [addEditFile, if_pos rfl]
      by_cases hka : k = a
      · subst hka
        simp [lookupEdits]
      · simp [lookupEdits, hka]
    · simp only [addEditFile, if_neg hk]
      by_cases hka : k = a
      · subst hka
        have hna : ¬ analyzer = k := fun hc => hk hc.symm
        simp [lookupEdits, hna]
      · simp [lookupEdits, hka, ih]

theorem editsFor_addEdit (c : NogoChange) (file analyzer : String)
    (ed : NogoEdit) (f a : String) :
    editsFor (addEdit c file analyzer ed) f a =
      editsFor c f a ++ if file = f ∧ analyzer = a then [ed] else [] := by
  induction c with
  | nil =>
    by_cases hf : file = f
    · subst hf
      by_cases ha : analyzer = a <;>
        simp [addEdit, editsFor, lookupFileEdits, lookupEdits, ha]
    · simp [addEdit, editsFor, lookupFileEdits, lookupEdits, hf]
  | cons p rest ih =>
    obtain ⟨k, fe⟩ := p
    by_cases hk : k = file
    · subst hk
      simp only [addEdit, if_pos rfl]
      by_cases hkf : k = f
      · subst hkf
        simp only [editsFor, lookupFileEdits, if_pos rfl, if_true, true_and,
          eq_self_iff_true]
        rw [lookupEdits_addEditFile]
      · have hno : ¬(k = f ∧ analyzer = a) := fun hc => hkf hc.1
        rw [if_neg hno, List.append_nil]
        simp only [editsFor, lookupFileEdits, if_neg hkf]
    · simp only [addEdit, if_neg hk]
      by_cases hkf : k = f
      · subst hkf
        have hno : ¬(file = k ∧ analyzer = a) := fun hc => hk hc.1.symm
        rw [if_neg hno, List.append_nil]
        simp only [editsFor, lookupFileEdits, if_pos rfl, if_true, true_and,
          eq_self_iff_true]
      · simp only [editsFor, lookupFileEdits, if_neg hkf]
        exact ih

theorem editChangeStep_append (fs : FileSet) (rel : String → String)
    (analyzer : String) :
    ∀ (c : NogoChange) (te : GoTextEdit) (f a : String),
      editsFor (editChangeStep fs rel analyzer c te) f a =
        editsFor c f a ++ editsFor (editChangeStep fs rel analyzer [] te) f a := by
  intro c te f a
  unfold editChangeStep
  cases hp : processTextEdit fs rel te with
  | error err => simp [editsFor, lookupFileEdits, lookupEdits]
  | ok p =>
    obtain ⟨file, ed⟩ := p
    rw [editsFor_addEdit, editsFor_addEdit]
    simp [editsFor, lookupFileEdits, lookupEdits]

theorem foldl_editsFor_append {α : Type _} (g : NogoChange → α → NogoChange)
    (hg : ∀ (c : NogoChange) (x : α) (f a : String),
      editsFor (g c x) f a = editsFor c f a ++ editsFor (g [] x) f a) :
    ∀ (l : List α) (c : NogoChange) (f a : String),
      editsFor (l.foldl g c) f a = editsFor c f a ++ editsFor (l.foldl g []) f a
  | [], c, f, a => by simp [editsFor, lookupFileEdits, lookupEdits]
  | x :: l, c, f, a => by
    simp only [List.foldl_cons]
    rw [foldl_editsFor_append g hg l (g c x) f a,
      foldl_editsFor_append g hg l (g [] x) f a, hg]
    simp

theorem fixChangeStep_append (fs : FileSet) (rel : String → String)
    (analyzer : String) :
    ∀ (c : NogoChange) (fix : List GoTextEdit) (f a : String),
      editsFor (fixChangeStep fs rel analyzer c fix) f a =
        editsFor c f a ++ editsFor (fixChangeStep fs rel analyzer [] fix) f a := by
  intro c fix f a
  unfold fixChangeStep
  exact foldl_editsFor_append _ (editChangeStep_append fs rel analyzer) fix c f a

theorem entryChangeStep_append (fs : FileSet) (rel : String → String) :
    ∀ (c : NogoChange) (entry : diagnosticEntry) (f a : String),
      editsFor (entryChangeStep fs rel c entry) f a =
        editsFor c f a ++ editsFor (entryChangeStep fs rel [] entry) f a := by
  intro c entry f a
  unfold entryChangeStep
  exact foldl_editsFor_append _ (fixChangeStep_append fs rel entry.analyzer)
    entry.suggestedFixes c f a

/-- Claim C8: when building a change from a batch of diagnostics, every
malformed suggested edit (missing file info, start past end, or end past
the file's EOF) is reported per occurrence — one error per bad `TextEdit`,
in processing order — and all errors across the whole batch are collected
and returned together rather than short-circuiting at the first one, while
the remaining valid edits are still recorded: both the error list and the
per-(file, analyzer) edits of a concatenated batch are the concatenations
of those of its parts. -/
theorem newChangeFromDiagnostics_spec (fs : FileSet) (rel : String → String)
    (entries1 entries2 : List diagnosticEntry) :
    (newChangeFromDiagnostics fs rel entries1).2 = batchErrors fs entries1 ∧
    (newChangeFromDiagnostics fs rel (entries1 ++ entries2)).2 =
      (newChangeFromDiagnostics fs rel entries1).2 ++
        (newChangeFromDiagnostics fs rel entries2).2 ∧
    (∀ file an,
      editsFor (newChangeFromDiagnostics fs rel (entries1 ++ entries2)).1 file an =
        editsFor (newChangeFromDiagnostics fs rel entries1).1 file an ++
          editsFor (newChangeFromDiagnostics fs rel entries2).1 file an) := by
  have h1 := run_decomp fs rel entries1 [] []
  have h2 := run_decomp fs rel entries2 [] []
  have h12 := run_decomp fs rel (entries1 ++ entries2) [] []
  unfold newChangeFromDiagnostics
  refine ⟨?_, ?_, ?_⟩
  · rw [h1]
    simp
  · rw [h12, h1, h2]
    simp [batchErrors]
  · intro file an
    rw [h12, h1, h2]
    simp only [List.foldl_append]
    exact foldl_editsFor_append _ (entryChangeStep_append fs rel) entries2
      (entries1.foldl (entryChangeStep fs rel) []) file an

/-- Claim C2, code bug: the claim (and spec §4.3, and the code's own
comment "Apply the non-overlapping edits first") require a rejected
analyzer to leave the accumulator element-for-element unchanged, but the
code's `candidateEdits := append(mergedEdits, edits...)` reuses the
accumulator's backing array when its spare capacity suffices, and the
in-place sort inside `uniqueSortedEdits` then permutes the accumulator's
visible elements before the overlap is detected.  At the failing input —
analyzer A commits `{10,12},{13,15},{16,18}` (length 3, capacity 4),
analyzer B contributes the overlapping `{9,14}` — B is rejected, yet the
rejection leaves the accumulator (and `flatten`'s returned merged list) as
the corrupted `[{9,14},{10,12},{13,15}]`: B's rejected edit intrudes and
`{16,18}` is lost, instead of the intended `[{10,12},{13,15},{16,18}]`
computed by the value-level `flattenFile`. -/
theorem flatten_reject_aliasing_corruption :
    (analyzerStepGo bugFileEdits ⟨[], 0, 0⟩ "A").visible =
      [⟨strBytes "a", 10, 12⟩, ⟨strBytes "b", 13, 15⟩, ⟨strBytes "c", 16, 18⟩] ∧
    (analyzerStepGo bugFileEdits ⟨[], 0, 0⟩ "A").cap = 4 ∧
    (uniqueSortedEdits ((analyzerStepGo bugFileEdits ⟨[], 0, 0⟩ "A").visible ++
      lookupEdits bugFileEdits "B")).2 = true ∧
    (analyzerStepGo bugFileEdits (analyzerStepGo bugFileEdits ⟨[], 0, 0⟩ "A")
        "B").visible ≠
      (analyzerStepGo bugFileEdits ⟨[], 0, 0⟩ "A").visible ∧
    flattenFileGo bugFileEdits =
      [⟨strBytes "z", 9, 14⟩, ⟨strBytes "a", 10, 12⟩, ⟨strBytes "b", 13, 15⟩] ∧
    flattenFile bugFileEdits =
      [⟨strBytes "a", 10, 12⟩, ⟨strBytes "b", 13, 15⟩, ⟨strBytes "c", 16, 18⟩] := by
  decide
